import Mathlib

/-!
Verification of the hard cores of the `Polqt/golang-journey` repository.

Each Go function relevant to the frozen claims is shallowly embedded as an
executable Lean definition: byte buffers become `List Nat` (each element a
byte value), Go's `uint32`/`uint64` arithmetic becomes `Nat` with explicit
`% 2 ^ 32` / `% 2 ^ 64` where overflow matters, Go maps become association
lists, `panic` and Go errors become `Option`/flag results, and the lock-based
coalescer becomes an interleaving small-step system over thread states.
-/

namespace wal

/-! Embedding of `src/challenges/03-wal-crash-recovery/main.go`.

Only the implemented helper `encodeRecord` is embedded; the `WAL` methods in
that file all panic with "implement me" and are not needed by the claims. -/

/-- Big-endian byte encoding of a 32-bit value, as written by Go's
`binary.BigEndian.PutUint32`: four bytes, most significant first.  Each byte
is the corresponding 8-bit slice of the value. -/
def u32be (v : Nat) : List Nat :=
  [v / 2 ^ 24 % 256, v / 2 ^ 16 % 256, v / 2 ^ 8 % 256, v % 256]

/-- The reflected CRC-32 (IEEE) polynomial used by Go's `hash/crc32`
package for `crc32.ChecksumIEEE`. -/
def crc32Poly : Nat := 0xEDB88320

/-- One bit step of the reflected CRC-32 computation: shift right, and XOR
with the polynomial when the low bit was set.  `c / 2` is the `uint32`
right shift. -/
def crcBit (c : Nat) : Nat :=
  if c % 2 = 1 then (c / 2) ^^^ crc32Poly else c / 2

/-- One byte step of CRC-32: XOR the byte into the low bits, then eight bit
steps.  This is the bitwise definition that Go's table-driven
`crc32.ChecksumIEEE` implements. -/
def crcByte (c b : Nat) : Nat :=
  crcBit (crcBit (crcBit (crcBit (crcBit (crcBit (crcBit (crcBit (c ^^^ b % 256))))))))

/-- CRC-32 (IEEE) of a byte sequence, as computed by `crc32.ChecksumIEEE`:
initial value `0xFFFFFFFF`, byte-wise update, final complement. -/
def crc32 (data : List Nat) : Nat :=
  (data.foldl crcByte 0xFFFFFFFF) ^^^ 0xFFFFFFFF

/-- Model of Go's `copy(l[i:], xs)` on a byte slice: overwrite positions
`i, i+1, ...` of `l` with the first `min (xs.length) (l.length - i)` bytes
of `xs`, leaving everything else unchanged. -/
def writeAt (l : List Nat) (i : Nat) (xs : List Nat) : List Nat :=
  l.take i ++ xs.take (l.length - i) ++ l.drop (i + min xs.length (l.length - i))

/-- Embedding of `encodeRecord` from `main.go`: allocate a zero buffer of
size `4 + 1 + len(payload) + 4`, write the big-endian length
`uint32(1 + len(payload) + 4)` at offset 0, the type byte at offset 4, the
payload at offset 5, and the big-endian CRC-32 of `buf[4 : 5+len(payload)]`
at offset `5 + len(payload)`. -/
def encodeRecord (recordType : Nat) (payload : List Nat) : List Nat :=
  let length := (1 + payload.length + 4) % 2 ^ 32
  let buf0 := List.replicate (4 + 1 + payload.length + 4) 0
  let buf1 := writeAt buf0 0 (u32be length)
  let buf2 := buf1.set 4 recordType
  let buf3 := writeAt buf2 5 payload
  let checksum := crc32 ((buf3.drop 4).take (1 + payload.length))
  writeAt buf3 (5 + payload.length) (u32be checksum)

end wal

namespace crdt

/-! Embedding of the OR-Set from `src/unnamed/part_021` (package `crdt`).

The Go field `elements : map[string]map[string]struct{}` (value to set of
add-tags) is embedded as an association list from values to tag lists. -/

/-- The OR-Set state: an association list mapping each value to the list of
add-tags currently recorded for it.  A key that is absent has no tags. -/
def ORSet := List (String × List String)

/-- Lookup of `s.elements[value]` together with the `ok` flag of the Go map
access: `some tags` when the key is present, `none` otherwise. -/
def lookupTags (s : ORSet) (value : String) : Option (List String) :=
  match s with
  | [] => none
  | (v, tags) :: rest => if v = value then some tags else lookupTags rest value

/-- Embedding of `ORSet.Contains`: `tags, ok := s.elements[value];
return ok && len(tags) > 0`. -/
def contains (s : ORSet) (value : String) : Bool :=
  match lookupTags s value with
  | some tags => decide (0 < tags.length)
  | none => false

/-- The tag set recorded for `value`: the stored list when the key is
present, and the empty set otherwise. -/
def tagsOf (s : ORSet) (value : String) : List String :=
  (lookupTags s value).getD []

end crdt


namespace gorilla

/-! Embedding of the Gorilla XOR chunk from
`src/projects/06-timeseries-db/tsdb/head/chunk.go` (package `head`).

The bit buffer (`buf []byte` plus `bitPos`) is embedded as the list of bits
written so far (`writeBit` appends one bit, most significant bit of each
byte first, so the byte packing is recoverable from the bit list).  Values
are represented by their IEEE-754 bit patterns: `math.Float64bits v` is the
identity on this representation, and the code performs no float arithmetic.
Go's `panic` (in `encodeTimestampDoD` and in the unimplemented branch of
`appendValue`, both of which panic with "not yet implemented") is embedded
as `none`. -/

/-- Per-chunk encoder state, mirroring the fields of `head.Chunk`.  `buf`
is the bit stream written so far; `vLast` holds the previous value's 64
bits; `vLeadLast`/`vMeanLast` are declared but never written by the
implemented code paths. -/
structure Chunk where
  buf : List Bool
  numSamples : Nat
  tLast : Int
  tDeltaLast : Int
  vLast : Nat
  vLeadLast : Nat
  vMeanLast : Nat
deriving DecidableEq

/-- Embedding of `NewChunk`: a fresh chunk with empty buffer and zeroed
state. -/
def NewChunk : Chunk :=
  { buf := [], numSamples := 0, tLast := 0, tDeltaLast := 0,
    vLast := 0, vLeadLast := 0, vMeanLast := 0 }

/-- Embedding of `Chunk.writeBit`: append a single bit to the stream. -/
def writeBit (c : Chunk) (b : Bool) : Chunk :=
  { c with buf := c.buf ++ [b] }

/-- The `n` bits of `v`, most significant first: the sequence of bits
written by `Chunk.writeBits(v, n)`, which emits bit `i` of `v` for
`i = n-1` down to `0`. -/
def natBits (v : Nat) (n : Nat) : List Bool :=
  (List.range n).reverse.map (fun i => v.testBit i)

/-- Embedding of `Chunk.writeBits`: append the low `n` bits of `v`, most
significant first. -/
def writeBits (c : Chunk) (v : Nat) (n : Nat) : Chunk :=
  { c with buf := c.buf ++ natBits v n }

/-- Go's `uint64(x)` conversion of a signed 64-bit value: reduce modulo
`2 ^ 64` into a natural number. -/
def u64ofInt (x : Int) : Nat := (x % (2 ^ 64 : Int)).toNat

/-- Embedding of `Chunk.appendFirst`: store the full 64-bit timestamp and
the full 64-bit value pattern. -/
def appendFirst (c : Chunk) (ts : Int) (vbits : Nat) : Chunk :=
  let c := writeBits c (u64ofInt ts) 64
  let c := writeBits c vbits 64
  { c with tLast := ts, vLast := vbits }

/-- Embedding of `Chunk.appendValue`: XOR against the previous value bits;
a zero XOR writes a single `0` bit; any non-zero XOR reaches the
`panic("Chunk.appendValue: not yet implemented")` branch, embedded as
`none`. -/
def appendValue (c : Chunk) (vbits : Nat) : Option Chunk :=
  let xor := c.vLast ^^^ vbits
  let c := { c with vLast := vbits }
  if xor = 0 then some (writeBit c false) else none

/-- Embedding of `Chunk.appendSecond`: write the first delta in 14 bits
(`firstDeltaBits`), then the XOR-encoded value; on success record the
delta. -/
def appendSecond (c : Chunk) (ts : Int) (vbits : Nat) : Option Chunk :=
  let delta := ts - c.tLast
  let c2 := writeBits c (u64ofInt delta) 14
  match appendValue c2 vbits with
  | some c3 => some { c3 with tDeltaLast := delta, tLast := ts }
  | none => none

/-- Embedding of `Chunk.appendDelta`: the delta-of-delta timestamp encoder
`encodeTimestampDoD` panics unconditionally
(`panic("Chunk.encodeTimestampDoD: not yet implemented")`), so every call
is embedded as `none`. -/
def appendDelta (_ : Chunk) (_ : Int) (_ : Nat) : Option Chunk :=
  none

/-- Embedding of `Chunk.Append`: dispatch on the sample count and increment
it on success. -/
def append (c : Chunk) (ts : Int) (vbits : Nat) : Option Chunk :=
  let r :=
    match c.numSamples with
    | 0 => some (appendFirst c ts vbits)
    | 1 => appendSecond c ts vbits
    | _ => appendDelta c ts vbits
  r.map (fun c2 => { c2 with numSamples := c2.numSamples + 1 })

/-- Iterator state, mirroring `head.Iterator`: a frozen chunk, the sample
index, and the error flag (`Err`). -/
structure Iterator where
  c : Chunk
  idx : Nat
  err : Bool
deriving DecidableEq

/-- Embedding of `Chunk.NewIterator`. -/
def NewIterator (c : Chunk) : Iterator :=
  { c := c, idx := 0, err := false }

/-- Embedding of `Iterator.Next`: when all samples are consumed it returns
`false`; otherwise it sets `Err` to the "not yet implemented" error and
returns `false` without producing a sample. -/
def next (it : Iterator) : Bool × Iterator :=
  if it.c.numSamples ≤ it.idx then (false, it)
  else (false, { it with err := true })

/-- Decoding a chunk: drive `next` until it returns `false`, collecting the
decoded `(ts, value-bits)` samples that the iterator yields.  The first
call to `next` already returns `false`, so the decoded sequence is empty
and the second component records whether `Err` was set. -/
def decodeAll (c : Chunk) : List (Int × Nat) × Bool :=
  let r := next (NewIterator c)
  ([], r.2.err)

/-- Encoding a list of samples by repeated `Append` onto a fresh chunk,
propagating the panic. -/
def encodeAll (samples : List (Int × Nat)) : Option Chunk :=
  samples.foldl (fun oc s => oc.bind (fun c => append c s.1 s.2)) (some NewChunk)

end gorilla

namespace edge

/-! Embedding of the edge caching proxy from `src/unnamed/part_014` (package
`edge`) and its `cache` package (`CachedResponse`, `ParseCacheControl`,
store semantics).  Wall-clock instants and durations are embedded as
integers in seconds (the concrete unit is irrelevant to the control flow;
`DefaultConfig` uses 60 s / 10 s).  HTTP requests and responses are reduced
to the fields the embedded control flow reads. -/

/-- Embedding of `cache.CachedResponse`, restricted to the fields the
proxy's decision logic reads (status code and the three instants). -/
structure CachedResponse where
  statusCode : Nat
  cachedAt : Int
  expires : Int
  staleUntil : Int
deriving DecidableEq

/-- Embedding of `CachedResponse.IsExpired`: `now.After(r.Expires)`. -/
def IsExpired (r : CachedResponse) (now : Int) : Bool :=
  decide (r.expires < now)

/-- Embedding of `CachedResponse.IsStale`: expired but before
`StaleUntil` (`now.Before(r.StaleUntil)`). -/
def IsStale (r : CachedResponse) (now : Int) : Bool :=
  IsExpired r now && decide (now < r.staleUntil)

/-- Embedding of `edge.Config`, restricted to the TTL fields read by
`fetchOrigin`. -/
structure Config where
  defaultTTL : Int
  staleGracePeriod : Int
deriving DecidableEq

/-- Embedding of `edge.DefaultConfig`: `DefaultTTL = 60 s`,
`StaleGracePeriod = 10 s`. -/
def DefaultConfig : Config :=
  { defaultTTL := 60, staleGracePeriod := 10 }

/-- Embedding of `cache.ParseCacheControl`.  The body in the source is a
TODO stub: it ignores the header and returns `(0, 0, false)` for every
input, so in particular `no-store` is never reported. -/
def ParseCacheControl (_header : String) : Int × Int × Bool :=
  (0, 0, false)

/-- Embedding of `isCacheableStatus`: true for
200, 203, 204, 206, 300, 301, 404, 410. -/
def isCacheableStatus (code : Nat) : Bool :=
  code = 200 || code = 203 || code = 204 || code = 206 ||
    code = 300 || code = 301 || code = 404 || code = 410

/-- Embedding of the cache-metadata computation at the end of
`Proxy.fetchOrigin`: parse `Cache-Control`, map `no-store` to
`maxAge = -1`, substitute the configured defaults for zero values, and
derive `Expires`/`StaleUntil` from `now`. -/
def fetchOriginMeta (ccHeader : String) (cfg : Config) (now : Int)
    (status : Nat) : CachedResponse :=
  let parsed := ParseCacheControl ccHeader
  let maxAge0 := parsed.1
  let swr0 := parsed.2.1
  let noStore := parsed.2.2
  let maxAge1 := if noStore then -1 else maxAge0
  let maxAge := if maxAge1 = 0 then cfg.defaultTTL else maxAge1
  let swr := if swr0 = 0 then cfg.staleGracePeriod else swr0
  { statusCode := status, cachedAt := now,
    expires := now + maxAge, staleUntil := now + maxAge + swr }

/-- Observable effects of one `ServeHTTP` invocation, in program order of
initiation.  `coalesceDo key` records an origin fetch performed inside
`p.coalesce.do(key, ...)`; `originFetch key` records a direct call to
`p.fetchOrigin` that does not go through the coalescer. -/
inductive Effect where
  | serveClient (xcache : String)
  | coalesceDo (key : String)
  | originFetch (key : String)
  | storeSet (key : String)
  | badGateway
deriving DecidableEq, BEq

/-- Effects of the miss path of `Proxy.ServeHTTP`: the origin fetch runs
under `p.coalesce.do(key, ...)`; on error the handler replies 502; on
success the response is stored when its status is cacheable and then
served with `X-Cache: MISS`. -/
def missTrace (key : String) (origin : Option CachedResponse) : List Effect :=
  match origin with
  | none => [.coalesceDo key, .badGateway]
  | some cr =>
    [.coalesceDo key] ++
      (if isCacheableStatus cr.statusCode then [.storeSet key] else []) ++
      [.serveClient "MISS"]

/-- Embedding of the cacheable-request path of `Proxy.ServeHTTP` as its
effect trace.  `entry` is the result of `p.store.Get(key)`; `origin` is
what `p.fetchOrigin` returns (`none` for a fetch error).  On a fresh hit
the handler serves the entry.  On a stale hit it serves the stale entry
and spawns a goroutine whose body is a direct `p.fetchOrigin` followed by
`p.store.Set` on success — recorded as `originFetch` (not `coalesceDo`).
Otherwise it takes the miss path. -/
def serveHTTPTrace (key : String) (now : Int) (entry : Option CachedResponse)
    (origin : Option CachedResponse) : List Effect :=
  match entry with
  | some resp =>
    if ¬ IsExpired resp now then [.serveClient "HIT"]
    else if IsStale resp now then
      [.serveClient "STALE", .originFetch key] ++
        (match origin with
         | some _ => [.storeSet key]
         | none => [])
    else missTrace key origin
  | none => missTrace key origin

/-- Count of origin fetches in a trace that bypass the coalescer. -/
def countDirectFetches (tr : List Effect) : Nat :=
  tr.countP (fun e => match e with | .originFetch _ => true | _ => false)

/-- Count of origin fetches in a trace that run under the coalescer. -/
def countCoalesced (tr : List Effect) : Nat :=
  tr.countP (fun e => match e with | .coalesceDo _ => true | _ => false)

/-! Interleaving model of `coalescer.do` from `src/unnamed/part_014`.

The coalescer is exercised by `C` concurrent callers of `do` for one fixed
key (the map is keyed per key and keys do not interact).  Each caller is a
thread running the body of `do`; the mutex-protected sections are single
atomic steps (every datum they touch — the `inflight` map entry — is only
accessed under `c.mu`, so critical sections serialize), and the unlocked
actions (`fn()`, `close(call.done)`, the blocking `<-call.done`) are their
own steps.  Thread program counters:

* `pc 0` — `c.mu.Lock();` check `c.inflight[key]`; either join the
  in-flight call and unlock (waiter, to `pc 4`) or create and publish a
  fresh call and unlock (leader, to `pc 1`);
* `pc 1` — leader runs `fn()` and stores `call.resp, call.err`;
* `pc 2` — leader runs `close(call.done)`;
* `pc 3` — leader locks, `delete(c.inflight, key)`, unlocks and returns
  `call.resp, call.err`;
* `pc 4` — waiter blocks on `<-call.done`, then returns
  `call.resp, call.err`;
* `pc 5` — returned.

A call's stored `(resp, err)` pair is represented by the index of the
`fn()` invocation that produced it (`fnCount` at invocation time), so two
equal results mean the very same response object and error. -/

/-- One `inflightCall`: the `done` channel state (closed or not) and the
stored result (`none` until `fn()` has run). -/
structure CallSt where
  done : Bool
  result : Option Nat
deriving DecidableEq

/-- One caller of `do`: program counter, the call it joined (`joined`),
and its return value once it reaches `pc 5`. -/
structure ThreadSt where
  pc : Nat
  joined : Option Nat
  ret : Option Nat
deriving DecidableEq

/-- Global state of the coalescer system: the map entry for the key
(`inflight`, holding the index of the published call, mirroring
`c.inflight[key]`), the arena of calls ever created, the number of `fn()`
invocations so far, and all threads. -/
structure CoState where
  inflight : Option Nat
  calls : List CallSt
  fnCount : Nat
  threads : List ThreadSt
deriving DecidableEq

/-- Read `call.resp, call.err` of call `c` (a stable read: the result is
written before `done` is closed and never changes afterwards). -/
def readResult (s : CoState) (c : Nat) : Option Nat :=
  match s.calls[c]? with
  | some cs => cs.result
  | none => none

/-- One atomic step of thread `t`; a disabled or out-of-range thread
leaves the state unchanged (a stutter). -/
def coStep (s : CoState) (t : Nat) : CoState :=
  match s.threads[t]? with
  | none => s
  | some th =>
    if th.pc = 0 then
      match s.inflight with
      | some c =>
        { s with threads := s.threads.set t { pc := 4, joined := some c, ret := none } }
      | none =>
        { s with
          calls := s.calls ++ [{ done := false, result := none }],
          inflight := some s.calls.length,
          threads := s.threads.set t { pc := 1, joined := some s.calls.length, ret := none } }
    else if th.pc = 1 then
      match th.joined with
      | some c =>
        match s.calls[c]? with
        | some cs =>
          { s with
            calls := s.calls.set c { cs with result := some s.fnCount },
            fnCount := s.fnCount + 1,
            threads := s.threads.set t { th with pc := 2 } }
        | none => s
      | none => s
    else if th.pc = 2 then
      match th.joined with
      | some c =>
        match s.calls[c]? with
        | some cs =>
          { s with
            calls := s.calls.set c { cs with done := true },
            threads := s.threads.set t { th with pc := 3 } }
        | none => s
      | none => s
    else if th.pc = 3 then
      match th.joined with
      | some c =>
        { s with
          inflight := none,
          threads := s.threads.set t { th with pc := 5, ret := readResult s c } }
      | none => s
    else if th.pc = 4 then
      match th.joined with
      | some c =>
        match s.calls[c]? with
        | some cs =>
          if cs.done then
            { s with threads := s.threads.set t { th with pc := 5, ret := cs.result } }
          else s
        | none => s
      | none => s
    else s

/-- Run a schedule (a list of thread ids, executed left to right). -/
def coRun (C : Nat) (sched : List Nat) : CoState :=
  sched.foldl coStep
    { inflight := none, calls := [], fnCount := 0,
      threads := List.replicate C { pc := 0, joined := none, ret := none } }

/-- Inductive invariant of the coalescer system. -/
structure CoInv (s : CoState) : Prop where
  joined_lt : ∀ (t : Nat) (th : ThreadSt), s.threads[t]? = some th →
    ∀ c, th.joined = some c → c < s.calls.length
  pc0_joined : ∀ (t : Nat) (th : ThreadSt), s.threads[t]? = some th →
    th.pc = 0 → th.joined = none
  joined_some : ∀ (t : Nat) (th : ThreadSt), s.threads[t]? = some th →
    th.pc ≠ 0 → th.joined.isSome
  phase1 : ∀ (t : Nat) (th : ThreadSt), s.threads[t]? = some th →
    th.pc = 1 → ∀ c, th.joined = some c →
    s.inflight = some c ∧ s.calls[c]? = some { done := false, result := none }
  phase2 : ∀ (t : Nat) (th : ThreadSt), s.threads[t]? = some th →
    th.pc = 2 → ∀ c, th.joined = some c →
    s.inflight = some c ∧
      ∃ cs : CallSt, s.calls[c]? = some cs ∧ cs.done = false ∧ cs.result.isSome
  phase3 : ∀ (t : Nat) (th : ThreadSt), s.threads[t]? = some th →
    th.pc = 3 → ∀ c, th.joined = some c →
    s.inflight = some c ∧
      ∃ cs : CallSt, s.calls[c]? = some cs ∧ cs.done = true ∧ cs.result.isSome
  done_result : ∀ (c : Nat) (cs : CallSt), s.calls[c]? = some cs →
    cs.done = true → cs.result.isSome
  finished : ∀ (t : Nat) (th : ThreadSt), s.threads[t]? = some th → th.pc = 5 →
    ∃ (c : Nat) (cs : CallSt), th.joined = some c ∧ s.calls[c]? = some cs ∧
      cs.done = true ∧ th.ret = cs.result ∧ cs.result.isSome
  leader_unique : ∀ (t1 : Nat) (th1 : ThreadSt) (t2 : Nat) (th2 : ThreadSt),
    s.threads[t1]? = some th1 → s.threads[t2]? = some th2 →
    (th1.pc = 1 ∨ th1.pc = 2 ∨ th1.pc = 3) →
    (th2.pc = 1 ∨ th2.pc = 2 ∨ th2.pc = 3) → t1 = t2
  inflight_lt : ∀ c, s.inflight = some c → c < s.calls.length
  fn_eq : s.fnCount = s.calls.countP (fun cs => cs.result.isSome)
  covered : ∀ c, c < s.calls.length →
    ∃ (t : Nat) (th : ThreadSt), s.threads[t]? = some th ∧ th.joined = some c

end edge

namespace obspipeline

/-! Embedding of `Pipeline.processBatch` from
`src/projects/08-observability-pipeline/pipeline/pipeline.go`.

`Batch` keeps the three item lists whose lengths `Batch.Len` sums; the
item types are reduced to the fields read by the components under
verification (the tail sampler reads `TraceID` and `StatusCode` of spans).
A `Processor` is its `Process` function returning `(*Batch, error)`
embedded as `Option Batch × Option String`; an `Exporter` is its `Export`
function returning an `Option String` error.  `processBatch` is embedded
as the list of `Export` invocations it performs, each recorded as the
exporter's name paired with the error that `Export` returned (the Go code
only logs exporter errors and continues). -/

/-- Embedding of `pipeline.Span`, restricted to the fields read by the
processors under verification.  `TraceID` (a `[16]byte`) is embedded as a
natural number below `2 ^ 128`. -/
structure Span where
  traceID : Nat
  statusCode : Int
deriving DecidableEq

/-- Embedding of `pipeline.DataPoint`, reduced to its name. -/
structure DataPoint where
  name : String
deriving DecidableEq

/-- Embedding of `pipeline.LogRecord`, reduced to its body. -/
structure LogRecord where
  body : String
deriving DecidableEq

/-- Embedding of `pipeline.SignalKind`. -/
inductive SignalKind where
  | traces
  | metrics
  | logs
deriving DecidableEq

/-- Embedding of `pipeline.Batch`. -/
structure Batch where
  kind : SignalKind
  spans : List Span
  points : List DataPoint
  logRecs : List LogRecord
deriving DecidableEq

/-- Embedding of `Batch.Len`. -/
def Batch.len (b : Batch) : Nat :=
  b.spans.length + b.points.length + b.logRecs.length

/-- A processor: its name and its `Process` function. -/
structure Processor where
  name : String
  process : Batch → Option Batch × Option String

/-- An exporter: its name and its `Export` function. -/
structure Exporter where
  name : String
  Export : Batch → Option String

/-- Embedding of `Pipeline.processBatch`, returning the list of `Export`
invocations it performs: the processor loop threads the batch through each
processor, returning early (no exports) on a processor error or on a `nil`
or empty batch; then every registered exporter is invoked on the final
batch, an exporter error being logged without stopping the loop. -/
def processBatch : List Processor → List Exporter → Batch →
    List (String × Option String)
  | [], exps, b => exps.map (fun e => (e.name, e.Export b))
  | proc :: rest, exps, b =>
    match proc.process b with
    | (_, some _) => []
    | (none, none) => []
    | (some b2, none) => if b2.len = 0 then [] else processBatch rest exps b2

/-- The processor chain alone: the batch that reaches the exporter loop,
or `none` when some processor errors or drops the batch (returns `nil` or
an empty batch). -/
def runProcessors : List Processor → Batch → Option Batch
  | [], b => some b
  | proc :: rest, b =>
    match proc.process b with
    | (_, some _) => none
    | (none, none) => none
    | (some b2, none) => if b2.len = 0 then none else runProcessors rest b2

end obspipeline

namespace processor

/-! Embedding of the tail sampler from `src/unnamed/part_018` (package
`processor`).

The Go buffer `map[[16]byte]*traceBuffer` is embedded as an association
list in insertion order (iteration order over the Go map is unspecified;
the claims under verification are about membership, which is unaffected).
`time.Time` instants are embedded as integers; `SamplingRate` is a
`float64` never read by the implemented code path (`shouldSample`
placeholder) and is omitted. -/

/-- Embedding of `traceBuffer`: the spans buffered for one trace, the
arrival instant of its first span, and the error flag. -/
structure TraceBuf where
  spans : List obspipeline.Span
  arrivedAt : Int
  hasError : Bool
deriving DecidableEq

/-- Embedding of `TailSamplerConfig` (the fields the implemented code
reads). -/
structure TailSamplerConfig where
  decisionWait : Int
  numTraces : Nat
  alwaysSampleErrors : Bool
deriving DecidableEq

/-- Embedding of the span-buffering loop body of `TailSampler.Process`: on
a new trace id, create a `traceBuffer` with `arrivedAt = now`; then append
the span and set `hasError` when `span.StatusCode >= 2` (OTLP ERROR). -/
def bufferSpan (now : Int) :
    List (Nat × TraceBuf) → obspipeline.Span → List (Nat × TraceBuf)
  | [], s =>
    [(s.traceID,
      { spans := [s], arrivedAt := now, hasError := decide (2 ≤ s.statusCode) })]
  | (tid, tb) :: rest, s =>
    if tid = s.traceID then
      (tid,
        { tb with
          spans := tb.spans ++ [s],
          hasError := tb.hasError || decide (2 ≤ s.statusCode) }) :: rest
    else (tid, tb) :: bufferSpan now rest s

/-- Embedding of `TailSampler.shouldSample`: keep error traces when
`AlwaysSampleErrors` is set; the probabilistic branch is a placeholder in
the source (`return true` until hash-based sampling is implemented). -/
def shouldSample (cfg : TailSamplerConfig) (tb : TraceBuf) : Bool :=
  if cfg.alwaysSampleErrors && tb.hasError then true
  else true

/-- Embedding of the trace-path of `TailSampler.Process`: buffer the
incoming spans, flush every trace whose decision window has elapsed
(`now - arrivedAt >= DecisionWait`), collecting the spans of sampled
traces, and keep the rest buffered.  The buffer-overflow branch in the
source (`len(ts.buf) > ts.cfg.NumTraces`) is a TODO that only formats a
string and evicts nothing, so the remaining buffer is returned as is. -/
def Process (cfg : TailSamplerConfig) (now : Int)
    (buf : List (Nat × TraceBuf)) (spans : List obspipeline.Span) :
    List (Nat × TraceBuf) × List obspipeline.Span :=
  let buf1 := spans.foldl (bufferSpan now) buf
  let decided := buf1.filter (fun p => decide (cfg.decisionWait ≤ now - p.2.arrivedAt))
  let remaining := buf1.filter (fun p => decide (now - p.2.arrivedAt < cfg.decisionWait))
  let sampled := decided.foldl
    (fun acc p => if shouldSample cfg p.2 then acc ++ p.2.spans else acc) []
  (remaining, sampled)

end processor

namespace crdt

/-- C9 — OR-Set membership.  For every value `v` and every OR-Set state,
`Contains v` returns `true` if and only if the tag set recorded for `v`
is non-empty. -/
theorem orset_contains_iff_tags_nonempty (s : ORSet) (v : String) :
    contains s v = true ↔ tagsOf s v ≠ [] := by
  unfold contains tagsOf
  cases h : lookupTags s v with
  | none => simp
  | some tags =>
    simp only [Option.getD_some, decide_eq_true_eq]
    cases tags <;> simp

end crdt

namespace wal

theorem writeAt_in_range (l : List Nat) (i : Nat) (xs : List Nat)
    (h : i + xs.length ≤ l.length) :
    writeAt l i xs = l.take i ++ xs ++ l.drop (i + xs.length) := by
  unfold writeAt
  have h1 : xs.length ≤ l.length - i := by omega
  rw [min_eq_left h1, List.take_of_length_le h1]

theorem u32be_length (v : Nat) : (u32be v).length = 4 := rfl

theorem enc_step1 (p : List Nat) (q : List Nat) (hq : q.length = 4) :
    writeAt (List.replicate (4 + 1 + p.length + 4) 0) 0 q
      = q ++ 0 :: (List.replicate p.length 0 ++ [0, 0, 0, 0]) := by
  rw [writeAt_in_range _ _ _ (by simp [hq, List.length_replicate])]
  rw [List.take_zero, List.nil_append, hq]
  have hrep : List.replicate (4 + 1 + p.length + 4) (0 : Nat)
      = List.replicate 4 0 ++ 0 :: (List.replicate p.length 0 ++ [0, 0, 0, 0]) := by
    have h9 : (4 + 1 + p.length + 4) = 4 + (1 + (p.length + 4)) := by omega
    rw [h9, List.replicate_add, List.replicate_add, List.replicate_add]
    rfl
  rw [hrep, show (0 + 4 : Nat) = (List.replicate 4 (0 : Nat)).length + 0 from by simp,
    List.drop_append]
  rfl

theorem enc_step2 (t : Nat) (rest : List Nat) (q : List Nat) (hq : q.length = 4) :
    (q ++ 0 :: rest).set 4 t = q ++ t :: rest := by
  rw [List.set_append_right _ _ (by omega), hq]
  rfl

theorem enc_step3 (t : Nat) (p : List Nat) (q : List Nat) (hq : q.length = 4) :
    writeAt (q ++ t :: (List.replicate p.length 0 ++ [0, 0, 0, 0])) 5 p
      = (q ++ [t]) ++ (p ++ [0, 0, 0, 0]) := by
  rw [writeAt_in_range _ _ _ (by simp [hq, List.length_replicate]; omega)]
  have ht : (q ++ t :: (List.replicate p.length 0 ++ [0, 0, 0, 0])).take 5
      = q ++ [t] := by
    rw [show (5 : Nat) = q.length + 1 from by omega, List.take_append]
    rfl
  have hd : (q ++ t :: (List.replicate p.length 0 ++ [0, 0, 0, 0])).drop (5 + p.length)
      = [0, 0, 0, 0] := by
    rw [show (5 + p.length : Nat) = q.length + (p.length + 1) from by omega,
      List.drop_append, List.drop_succ_cons, List.drop_left' (List.length_replicate ..)]
  rw [ht, hd]
  simp

theorem enc_step4 (t : Nat) (p : List Nat) (q : List Nat) (hq : q.length = 4) :
    (((q ++ [t]) ++ (p ++ [0, 0, 0, 0])).drop 4).take (1 + p.length) = t :: p := by
  rw [List.append_assoc, ← hq, List.drop_left]
  rw [show ([t] : List Nat) ++ (p ++ [0, 0, 0, 0]) = t :: (p ++ [0, 0, 0, 0]) from rfl,
    show (1 + p.length : Nat) = p.length + 1 from by omega, List.take_succ_cons,
    List.take_left' rfl]

theorem enc_step5 (t : Nat) (p : List Nat) (q q2 : List Nat)
    (hq : q.length = 4) (hq2 : q2.length = 4) :
    writeAt ((q ++ [t]) ++ (p ++ [0, 0, 0, 0])) (5 + p.length) q2
      = q ++ t :: p ++ q2 := by
  rw [writeAt_in_range _ _ _ (by simp [hq, hq2]; omega)]
  rw [show ((q ++ [t]) ++ (p ++ [0, 0, 0, 0])) = ((q ++ [t]) ++ p) ++ [0, 0, 0, 0] from by simp]
  rw [List.take_left' (by simp [hq]; omega), hq2,
    List.drop_of_length_le (by simp [hq]; omega)]
  simp

/-- C5 — WAL record encoding.  For every record type byte and payload,
`encodeRecord` produces exactly the big-endian `u32` length
`1 + len(payload) + 4` (counting from the type byte through the CRC),
followed by the type byte, the payload, and the big-endian `u32` CRC-32
(IEEE) computed over the type byte plus payload. -/
theorem encodeRecord_layout (t : Nat) (p : List Nat)
    (h : 1 + p.length + 4 < 2 ^ 32) :
    encodeRecord t p =
      u32be (1 + p.length + 4) ++ t :: p ++ u32be (crc32 (t :: p)) := by
  have hmod : (1 + p.length + 4) % 2 ^ 32 = 1 + p.length + 4 := Nat.mod_eq_of_lt h
  show writeAt _ _ _ = _
  rw [hmod, enc_step1 p _ (u32be_length _), enc_step2 t _ _ (u32be_length _),
    enc_step3 t p _ (u32be_length _), enc_step4 t p _ (u32be_length _),
    enc_step5 t p _ _ (u32be_length _) (u32be_length _)]

/-- Closed-form evaluation of `encodeRecord_layout` at the concrete record
type `0x01` (DATA) and payload `[0xAB, 0xCD]`. -/
theorem encodeRecord_layout_eval :
    encodeRecord 1 [171, 205] =
      u32be (1 + 2 + 4) ++ 1 :: [171, 205] ++ u32be (crc32 [1, 171, 205]) :=
  encodeRecord_layout 1 [171, 205] (by decide)

end wal

namespace gorilla

set_option maxRecDepth 8192

/-- C1 — Gorilla codec round-trip.  The claim fails on the code: already
for the single-sample sequence `[(ts 1, value bits 3)]` (non-decreasing
timestamps), `Append` succeeds, but `Iterator.Next` unconditionally sets
`Err` ("Iterator.Next: not yet implemented") and returns `false`, so the
decoded sequence is empty and the error flag is set, instead of the
original sequence. -/
theorem gorilla_roundtrip_fails :
    (encodeAll [(1, 3)]).map decodeAll = some ([], true) ∧
    ([] : List (Int × Nat)) ≠ [(1, 3)] := by
  decide

/-- C6 — Gorilla chunk header layout.  The first `Append` writes exactly
128 bits (the full 64-bit timestamp followed by the 64-bit value pattern),
but the second `Append` panics ("Chunk.appendValue: not yet implemented")
whenever the second value's bits differ from the first's, instead of
writing the XOR encoding: at `(1, bits 5)` then `(2, bits 7)` the second
call reaches the panic, embedded as `none`. -/
theorem gorilla_second_append_value_panics :
    (append NewChunk 1 5).map (fun c => c.buf) =
      some (natBits (u64ofInt 1) 64 ++ natBits 5 64) ∧
    (append NewChunk 1 5).map (fun c => c.buf.length) = some 128 ∧
    (append NewChunk 1 5).bind (fun c => append c 2 7) = none := by
  refine ⟨by decide, by decide, by decide⟩

end gorilla

namespace edge

/-- C3 — stale-while-revalidate refresh coalescing.  The claim fails on
the code: a stale hit (entry expired at 10, still stale at `now = 20`)
serves the stale entry and spawns a background refresh that calls
`p.fetchOrigin` directly, not under `p.coalesce.do`, so its trace holds
one direct origin fetch and no coalesced fetch, and two concurrent stale
hits on the same key perform two origin fetches. -/
theorem stale_refresh_not_coalesced :
    serveHTTPTrace "k" 20 (some ⟨200, 0, 10, 30⟩) (some ⟨200, 20, 80, 90⟩) =
      [.serveClient "STALE", .originFetch "k", .storeSet "k"] ∧
    countCoalesced
      (serveHTTPTrace "k" 20 (some ⟨200, 0, 10, 30⟩) (some ⟨200, 20, 80, 90⟩)) = 0 ∧
    countDirectFetches
      (serveHTTPTrace "k" 20 (some ⟨200, 0, 10, 30⟩) (some ⟨200, 20, 80, 90⟩) ++
        serveHTTPTrace "k" 20 (some ⟨200, 0, 10, 30⟩) (some ⟨200, 20, 80, 90⟩)) = 2 := by
  refine ⟨by decide, by decide, by decide⟩

/-- C4 — `no-store` disables caching.  The claim fails on the code:
`ParseCacheControl` is a stub that never reports `no-store`, so a 200
origin response with `Cache-Control: no-store` is assigned the default
TTL, stored on the miss path, and a later request for the same key is
served as a fresh HIT from the cache. -/
theorem no_store_response_still_cached :
    (ParseCacheControl "no-store").2.2 = false ∧
    serveHTTPTrace "k" 0 none (some (fetchOriginMeta "no-store" DefaultConfig 0 200)) =
      [.coalesceDo "k", .storeSet "k", .serveClient "MISS"] ∧
    serveHTTPTrace "k" 30 (some (fetchOriginMeta "no-store" DefaultConfig 0 200)) none =
      [.serveClient "HIT"] := by
  refine ⟨by decide, by decide, by decide⟩

end edge

namespace processor

theorem shouldSample_eq_true (cfg : TailSamplerConfig) (tb : TraceBuf) :
    shouldSample cfg tb = true := by
  unfold shouldSample
  split <;> rfl

theorem mem_foldl_sampled (cfg : TailSamplerConfig)
    (l : List (Nat × TraceBuf)) (acc : List obspipeline.Span)
    (x : obspipeline.Span)
    (h : x ∈ acc ∨ ∃ p ∈ l, x ∈ p.2.spans) :
    x ∈ l.foldl
      (fun acc p => if shouldSample cfg p.2 then acc ++ p.2.spans else acc) acc := by
  induction l generalizing acc with
  | nil =>
    rcases h with hacc | ⟨p, hp, _⟩
    · simpa using hacc
    · cases hp
  | cons q rest ih =>
    rw [List.foldl_cons, if_pos (shouldSample_eq_true cfg q.2)]
    apply ih
    rcases h with hacc | ⟨p, hp, hx⟩
    · exact Or.inl (List.mem_append.mpr (Or.inl hacc))
    · rcases List.mem_cons.mp hp with rfl | hrest
      · exact Or.inl (List.mem_append.mpr (Or.inr hx))
      · exact Or.inr ⟨p, hrest, hx⟩

/-- C7 — tail sampler keeps error traces.  With `AlwaysSampleErrors`
enabled, every trace that is flushed with a decision by `Process`
(`now - arrivedAt >= DecisionWait` after buffering) and that holds a
buffered span with `StatusCode >= 2` (OTLP ERROR) has all of its spans
included in the output batch. -/
theorem tailSampler_keeps_error_traces
    (cfg : TailSamplerConfig) (now : Int) (buf : List (Nat × TraceBuf))
    (spans : List obspipeline.Span) (tid : Nat) (tb : TraceBuf)
    (hcfg : cfg.alwaysSampleErrors = true)
    (hmem : (tid, tb) ∈ spans.foldl (bufferSpan now) buf)
    (hflush : cfg.decisionWait ≤ now - tb.arrivedAt)
    (s : obspipeline.Span) (hs : s ∈ tb.spans)
    (herr : ∃ e ∈ tb.spans, 2 ≤ e.statusCode) :
    s ∈ (Process cfg now buf spans).2 := by
  show s ∈ List.foldl _ [] _
  apply mem_foldl_sampled
  exact Or.inr ⟨(tid, tb),
    List.mem_filter.mpr ⟨hmem, by simpa using hflush⟩, hs⟩

/-- Evaluation of `tailSampler_keeps_error_traces` on a concrete buffered
error trace (trace id 7 with one span of status 2, flushed at `now = 10`
with `DecisionWait = 5`). -/
theorem tailSampler_keeps_error_traces_eval :
    (⟨7, 2⟩ : obspipeline.Span) ∈
      (Process ⟨5, 50000, true⟩ 10 [(7, ⟨[⟨7, 2⟩], 0, true⟩)] []).2 :=
  tailSampler_keeps_error_traces ⟨5, 50000, true⟩ 10
    [(7, ⟨[⟨7, 2⟩], 0, true⟩)] [] 7 ⟨[⟨7, 2⟩], 0, true⟩ rfl (by decide)
    (by decide) ⟨7, 2⟩ (by decide) ⟨⟨7, 2⟩, by decide, by decide⟩

/-- C8 — tail sampler buffer bound.  The claim fails on the code: the
eviction branch is a TODO that evicts nothing, so with `NumTraces = 1` a
single `Process` call buffering two traces (decision window not yet
elapsed) leaves two traces in the buffer. -/
theorem tailSampler_buffer_exceeds_numTraces :
    (Process ⟨100, 1, true⟩ 0 [] [⟨1, 0⟩, ⟨2, 0⟩]).1.length = 2 ∧
    (⟨100, 1, true⟩ : TailSamplerConfig).numTraces = 1 := by
  refine ⟨by decide, by decide⟩

end processor

namespace obspipeline

theorem processBatch_eq_run (procs : List Processor) (exps : List Exporter)
    (b : Batch) :
    processBatch procs exps b =
      match runProcessors procs b with
      | none => []
      | some b2 => exps.map (fun e => (e.name, e.Export b2)) := by
  induction procs generalizing b with
  | nil => rfl
  | cons p rest ih =>
    simp only [processBatch, runProcessors]
    rcases hp : p.process b with ⟨ob, oe⟩
    cases ob with
    | none =>
      cases oe with
      | none => rfl
      | some err => rfl
    | some b2 =>
      cases oe with
      | some err => rfl
      | none =>
        by_cases hlen : b2.len = 0
        · simp [hlen]
        · simpa [hlen] using ih b2

/-- C10 — pipeline error/drop isolation.  If the processor chain errors or
drops the batch (`runProcessors = none`), no exporter's `Export` is
invoked; otherwise every registered exporter is invoked exactly on the
final batch, and one exporter returning an error does not prevent the
remaining exporters from being invoked (the invocation list is the full
`exps.map`, independent of the errors each `Export` returns). -/
theorem processBatch_error_drop_isolation (procs : List Processor)
    (exps : List Exporter) (b : Batch) :
    (runProcessors procs b = none → processBatch procs exps b = []) ∧
    (∀ b2, runProcessors procs b = some b2 →
      processBatch procs exps b = exps.map (fun e => (e.name, e.Export b2)) ∧
      ∀ e ∈ exps, (e.name, e.Export b2) ∈ processBatch procs exps b) := by
  have h := processBatch_eq_run procs exps b
  constructor
  · intro hn
    rw [hn] at h
    exact h
  · intro b2 hs
    rw [hs] at h
    refine ⟨h, fun e he => ?_⟩
    rw [h]
    exact List.mem_map_of_mem _ he

/-- Evaluation of `processBatch_error_drop_isolation` on one passing
processor and two exporters of which the first errors: both exporters are
still invoked. -/
theorem processBatch_error_drop_isolation_eval :
    processBatch
        [{ name := "keep", process := fun b => (some b, none) }]
        [{ name := "first", Export := fun _ => some "boom" },
          { name := "second", Export := fun _ => none }]
        { kind := .traces, spans := [{ traceID := 1, statusCode := 0 }],
          points := [], logRecs := [] }
      = [("first", some "boom"), ("second", none)] := by
  have h := (processBatch_error_drop_isolation
      [{ name := "keep", process := fun b => (some b, none) }]
      [{ name := "first", Export := fun _ => some "boom" },
        { name := "second", Export := fun _ => none }]
      { kind := .traces, spans := [{ traceID := 1, statusCode := 0 }],
        points := [], logRecs := [] }).2
      { kind := .traces, spans := [{ traceID := 1, statusCode := 0 }],
        points := [], logRecs := [] } (by rfl)
  exact h.1.trans (by rfl)

end obspipeline

namespace edge

theorem mem_of_getElem?_some {α : Type} {l : List α} {i : Nat} {a : α}
    (h : l[i]? = some a) : i < l.length :=
  (List.getElem?_eq_some_iff.mp h).1

theorem getElem?_set_elim {α : Type} (l : List α) (i j : Nat) (b x : α)
    (h : (l.set i b)[j]? = some x) :
    (j = i ∧ x = b ∧ i < l.length) ∨ (j ≠ i ∧ l[j]? = some x) := by
  by_cases hij : j = i
  · subst hij
    by_cases hlt : j < l.length
    · rw [List.getElem?_set_self hlt] at h
      exact Or.inl ⟨rfl, (Option.some_inj.mp h).symm, hlt⟩
    · rw [List.getElem?_eq_none_iff.mpr
        (by simpa [List.length_set] using Nat.le_of_not_lt hlt)] at h
      cases h
  · exact Or.inr ⟨hij, by rwa [List.getElem?_set_ne (Ne.symm hij)] at h⟩

theorem getElem?_set_ne_self {α : Type} (l : List α) (i j : Nat) (b : α)
    (hij : j ≠ i) : (l.set i b)[j]? = l[j]? :=
  List.getElem?_set_ne (Ne.symm hij)

theorem getElem?_concat_elim {α : Type} (l : List α) (b x : α) (j : Nat)
    (h : (l ++ [b])[j]? = some x) :
    (j = l.length ∧ x = b) ∨ (j < l.length ∧ l[j]? = some x) := by
  by_cases hj : j < l.length
  · exact Or.inr ⟨hj, by rwa [List.getElem?_append_left hj] at h⟩
  · have hlen : j < l.length + 1 := by
      by_contra hge
      rw [List.getElem?_eq_none_iff.mpr (by simp; omega)] at h
      cases h
    have hje : j = l.length := by omega
    subst hje
    rw [List.getElem?_concat_length] at h
    exact Or.inl ⟨rfl, (Option.some_inj.mp h).symm⟩

theorem countP_concat_false {α : Type} (p : α → Bool) (l : List α) (b : α)
    (hb : p b = false) : (l ++ [b]).countP p = l.countP p := by
  rw [List.countP_append]
  simp [List.countP_cons, hb]

theorem countP_set_flip {α : Type} (p : α → Bool) (l : List α) (i : Nat)
    (a b : α) (hl : l[i]? = some a) (ha : p a = false) (hb : p b = true) :
    (l.set i b).countP p = l.countP p + 1 := by
  induction l generalizing i with
  | nil => cases hl
  | cons x xs ih =>
    cases i with
    | zero =>
      have hx : x = a := by simpa using hl
      subst hx
      simp [List.set, List.countP_cons, ha, hb]
    | succ n =>
      have hxs : xs[n]? = some a := by simpa using hl
      simp only [List.set, List.countP_cons]
      rw [ih n hxs]
      omega

theorem countP_set_same {α : Type} (p : α → Bool) (l : List α) (i : Nat)
    (a b : α) (hl : l[i]? = some a) (hab : p b = p a) :
    (l.set i b).countP p = l.countP p := by
  induction l generalizing i with
  | nil => cases hl
  | cons x xs ih =>
    cases i with
    | zero =>
      have hx : x = a := by simpa using hl
      subst hx
      simp [List.set, List.countP_cons, hab]
    | succ n =>
      have hxs : xs[n]? = some a := by simpa using hl
      simp only [List.set, List.countP_cons]
      rw [ih n hxs]

end edge

namespace edge

theorem coInv_step_join (s : CoState) (hinv : CoInv s) (t : Nat) (th : ThreadSt)
    (c : Nat) (hth : s.threads[t]? = some th) (hpc : th.pc = 0)
    (hin : s.inflight = some c) :
    CoInv { s with
            threads := s.threads.set t { pc := 4, joined := some c, ret := none } } := by
  constructor
  case joined_lt =>
    intro t' th' h' c' hj
    rcases getElem?_set_elim _ _ _ _ _ h' with ⟨_, rfl, _⟩ | ⟨_, hold⟩
    · have hc : c = c' := by simpa using hj
      exact hc ▸ hinv.inflight_lt c hin
    · exact hinv.joined_lt t' th' hold c' hj
  case pc0_joined =>
    intro t' th' h' hpc'
    rcases getElem?_set_elim _ _ _ _ _ h' with ⟨_, rfl, _⟩ | ⟨_, hold⟩
    · cases hpc'
    · exact hinv.pc0_joined t' th' hold hpc'
  case joined_some =>
    intro t' th' h' hpc'
    rcases getElem?_set_elim _ _ _ _ _ h' with ⟨_, rfl, _⟩ | ⟨_, hold⟩
    · rfl
    · exact hinv.joined_some t' th' hold hpc'
  case phase1 =>
    intro t' th' h' hpc' c' hj
    rcases getElem?_set_elim _ _ _ _ _ h' with ⟨_, rfl, _⟩ | ⟨_, hold⟩
    · cases hpc'
    · exact hinv.phase1 t' th' hold hpc' c' hj
  case phase2 =>
    intro t' th' h' hpc' c' hj
    rcases getElem?_set_elim _ _ _ _ _ h' with ⟨_, rfl, _⟩ | ⟨_, hold⟩
    · cases hpc'
    · exact hinv.phase2 t' th' hold hpc' c' hj
  case phase3 =>
    intro t' th' h' hpc' c' hj
    rcases getElem?_set_elim _ _ _ _ _ h' with ⟨_, rfl, _⟩ | ⟨_, hold⟩
    · cases hpc'
    · exact hinv.phase3 t' th' hold hpc' c' hj
  case done_result =>
    exact hinv.done_result
  case finished =>
    intro t' th' h' hpc'
    rcases getElem?_set_elim _ _ _ _ _ h' with ⟨_, rfl, _⟩ | ⟨_, hold⟩
    · cases hpc'
    · exact hinv.finished t' th' hold hpc'
  case leader_unique =>
    intro t1 th1 t2 th2 h1 h2 hl1 hl2
    rcases getElem?_set_elim _ _ _ _ _ h1 with ⟨_, rfl, _⟩ | ⟨_, hold1⟩
    · rcases hl1 with h | h | h <;> cases h
    · rcases getElem?_set_elim _ _ _ _ _ h2 with ⟨_, rfl, _⟩ | ⟨_, hold2⟩
      · rcases hl2 with h | h | h <;> cases h
      · exact hinv.leader_unique t1 th1 t2 th2 hold1 hold2 hl1 hl2
  case inflight_lt =>
    exact hinv.inflight_lt
  case fn_eq =>
    exact hinv.fn_eq
  case covered =>
    intro c' hc'
    rcases hinv.covered c' hc' with ⟨t0, th0, hth0, hj0⟩
    by_cases ht0 : t0 = t
    · subst ht0
      have : th0 = th := by rw [hth0] at hth; exact Option.some_inj.mp hth
      subst this
      rw [hinv.pc0_joined t0 th0 hth0 hpc] at hj0
      cases hj0
    · exact ⟨t0, th0, by rwa [getElem?_set_ne_self _ _ _ _ ht0], hj0⟩

end edge

namespace edge

theorem no_leader_of_inflight_none (s : CoState) (hinv : CoInv s)
    (hin : s.inflight = none) (t : Nat) (th : ThreadSt)
    (hth : s.threads[t]? = some th)
    (hl : th.pc = 1 ∨ th.pc = 2 ∨ th.pc = 3) : False := by
  have hj : th.joined.isSome :=
    hinv.joined_some t th hth (by rcases hl with h | h | h <;> simp [h])
  rcases Option.isSome_iff_exists.mp hj with ⟨c, hc⟩
  rcases hl with h | h | h
  · have h1 := (hinv.phase1 t th hth h c hc).1
    rw [hin] at h1
    cases h1
  · have h2 := (hinv.phase2 t th hth h c hc).1
    rw [hin] at h2
    cases h2
  · have h3 := (hinv.phase3 t th hth h c hc).1
    rw [hin] at h3
    cases h3

theorem coInv_step_create (s : CoState) (hinv : CoInv s) (t : Nat) (th : ThreadSt)
    (hth : s.threads[t]? = some th) (hpc : th.pc = 0) (hin : s.inflight = none) :
    CoInv { s with
            calls := s.calls ++ [{ done := false, result := none }],
            inflight := some s.calls.length,
            threads := s.threads.set t
              { pc := 1, joined := some s.calls.length, ret := none } } := by
  constructor
  case joined_lt =>
    intro t' th' h' c' hj
    rcases getElem?_set_elim _ _ _ _ _ h' with ⟨_, rfl, _⟩ | ⟨_, hold⟩
    · have hc : s.calls.length = c' := by simpa using hj
      simp [← hc]
    · have := hinv.joined_lt t' th' hold c' hj
      simp
      omega
  case pc0_joined =>
    intro t' th' h' hpc'
    rcases getElem?_set_elim _ _ _ _ _ h' with ⟨_, rfl, _⟩ | ⟨_, hold⟩
    · simp at hpc'
    · exact hinv.pc0_joined t' th' hold hpc'
  case joined_some =>
    intro t' th' h' hpc'
    rcases getElem?_set_elim _ _ _ _ _ h' with ⟨_, rfl, _⟩ | ⟨_, hold⟩
    · rfl
    · exact hinv.joined_some t' th' hold hpc'
  case phase1 =>
    intro t' th' h' hpc' c' hj
    rcases getElem?_set_elim _ _ _ _ _ h' with ⟨_, rfl, _⟩ | ⟨_, hold⟩
    · have hc : s.calls.length = c' := by simpa using hj
      refine ⟨by simp [← hc], ?_⟩
      rw [← hc]
      exact List.getElem?_concat_length ..
    · exact (no_leader_of_inflight_none s hinv hin t' th' hold (Or.inl hpc')).elim
  case phase2 =>
    intro t' th' h' hpc' c' hj
    rcases getElem?_set_elim _ _ _ _ _ h' with ⟨_, rfl, _⟩ | ⟨_, hold⟩
    · simp at hpc'
    · exact (no_leader_of_inflight_none s hinv hin t' th' hold
        (Or.inr (Or.inl hpc'))).elim
  case phase3 =>
    intro t' th' h' hpc' c' hj
    rcases getElem?_set_elim _ _ _ _ _ h' with ⟨_, rfl, _⟩ | ⟨_, hold⟩
    · simp at hpc'
    · exact (no_leader_of_inflight_none s hinv hin t' th' hold
        (Or.inr (Or.inr hpc'))).elim
  case done_result =>
    intro c' cs h' hdone
    rcases getElem?_concat_elim _ _ _ _ h' with ⟨_, rfl⟩ | ⟨_, hold⟩
    · cases hdone
    · exact hinv.done_result c' cs hold hdone
  case finished =>
    intro t' th' h' hpc'
    rcases getElem?_set_elim _ _ _ _ _ h' with ⟨_, rfl, _⟩ | ⟨_, hold⟩
    · simp at hpc'
    · rcases hinv.finished t' th' hold hpc' with ⟨c, cs, hj, hcs, hd, hr, hrs⟩
      exact ⟨c, cs, hj,
        by rw [List.getElem?_append_left (mem_of_getElem?_some hcs)]; exact hcs,
        hd, hr, hrs⟩
  case leader_unique =>
    intro t1 th1 t2 th2 h1 h2 hl1 hl2
    rcases getElem?_set_elim _ _ _ _ _ h1 with ⟨rfl, rfl, _⟩ | ⟨_, hold1⟩
    · rcases getElem?_set_elim _ _ _ _ _ h2 with ⟨rfl, rfl, _⟩ | ⟨_, hold2⟩
      · rfl
      · exact (no_leader_of_inflight_none s hinv hin t2 th2 hold2 hl2).elim
    · exact (no_leader_of_inflight_none s hinv hin t1 th1 hold1 hl1).elim
  case inflight_lt =>
    intro c' hc'
    have hc : s.calls.length = c' := by simpa using hc'
    simp [← hc]
  case fn_eq =>
    show s.fnCount = List.countP _ (s.calls ++ [{ done := false, result := none }])
    rw [countP_concat_false _ _ _ rfl]
    exact hinv.fn_eq
  case covered =>
    intro c' hc'
    by_cases hc : c' < s.calls.length
    · rcases hinv.covered c' hc with ⟨t0, th0, hth0, hj0⟩
      by_cases ht0 : t0 = t
      · subst ht0
        have hth0t : th0 = th := by rw [hth0] at hth; exact Option.some_inj.mp hth
        subst hth0t
        rw [hinv.pc0_joined t0 th0 hth0 hpc] at hj0
        cases hj0
      · exact ⟨t0, th0, by rwa [getElem?_set_ne_self _ _ _ _ ht0], hj0⟩
    · have hce : c' = s.calls.length := by
        simp at hc'
        omega
      subst hce
      exact ⟨t, { pc := 1, joined := some s.calls.length, ret := none },
        by rw [List.getElem?_set_self (mem_of_getElem?_some hth)], rfl⟩

end edge

namespace edge

theorem coInv_step_run (s : CoState) (hinv : CoInv s) (t : Nat) (th : ThreadSt)
    (c : Nat) (cs : CallSt) (hth : s.threads[t]? = some th) (hpc : th.pc = 1)
    (hj : th.joined = some c) (hcs : s.calls[c]? = some cs) :
    CoInv { s with
            calls := s.calls.set c { cs with result := some s.fnCount },
            fnCount := s.fnCount + 1,
            threads := s.threads.set t { th with pc := 2 } } := by
  have hph := hinv.phase1 t th hth hpc c hj
  have hcs0 : cs = { done := false, result := none } := by
    rw [hph.2] at hcs
    exact (Option.some_inj.mp hcs).symm
  have hclt : c < s.calls.length := mem_of_getElem?_some hcs
  constructor
  case joined_lt =>
    intro t' th' h' c' hj'
    rcases getElem?_set_elim _ _ _ _ _ h' with ⟨_, rfl, _⟩ | ⟨_, hold⟩
    · have := hinv.joined_lt t th hth c' hj'
      simpa using this
    · have := hinv.joined_lt t' th' hold c' hj'
      simpa using this
  case pc0_joined =>
    intro t' th' h' hpc'
    rcases getElem?_set_elim _ _ _ _ _ h' with ⟨_, rfl, _⟩ | ⟨_, hold⟩
    · simp at hpc'
    · exact hinv.pc0_joined t' th' hold hpc'
  case joined_some =>
    intro t' th' h' hpc'
    rcases getElem?_set_elim _ _ _ _ _ h' with ⟨_, rfl, _⟩ | ⟨_, hold⟩
    · show th.joined.isSome
      rw [hj]
      rfl
    · exact hinv.joined_some t' th' hold hpc'
  case phase1 =>
    intro t' th' h' hpc' c' hj'
    rcases getElem?_set_elim _ _ _ _ _ h' with ⟨_, rfl, _⟩ | ⟨hne, hold⟩
    · simp at hpc'
    · exact absurd
        (hinv.leader_unique t' th' t th hold hth (Or.inl hpc') (Or.inl hpc)) hne
  case phase2 =>
    intro t' th' h' hpc' c' hj'
    rcases getElem?_set_elim _ _ _ _ _ h' with ⟨_, rfl, _⟩ | ⟨hne, hold⟩
    · have hcc : c = c' := by
        rw [hj] at hj'
        exact Option.some_inj.mp hj'
      subst hcc
      refine ⟨hph.1, { cs with result := some s.fnCount }, ?_, ?_, rfl⟩
      · exact List.getElem?_set_self hclt
      · rw [hcs0]
    · exact absurd
        (hinv.leader_unique t' th' t th hold hth (Or.inr (Or.inl hpc')) (Or.inl hpc))
        hne
  case phase3 =>
    intro t' th' h' hpc' c' hj'
    rcases getElem?_set_elim _ _ _ _ _ h' with ⟨_, rfl, _⟩ | ⟨hne, hold⟩
    · simp at hpc'
    · exact absurd
        (hinv.leader_unique t' th' t th hold hth (Or.inr (Or.inr hpc')) (Or.inl hpc))
        hne
  case done_result =>
    intro c' cs' h' hdone
    rcases getElem?_set_elim _ _ _ _ _ h' with ⟨_, rfl, _⟩ | ⟨_, hold⟩
    · rfl
    · exact hinv.done_result c' cs' hold hdone
  case finished =>
    intro t' th' h' hpc'
    rcases getElem?_set_elim _ _ _ _ _ h' with ⟨_, rfl, _⟩ | ⟨_, hold⟩
    · simp at hpc'
    · rcases hinv.finished t' th' hold hpc' with ⟨c0, cs0, hj0, hcs0', hd0, hr0, hrs0⟩
      have hc0c : c0 ≠ c := by
        intro hcc
        subst hcc
        rw [hph.2] at hcs0'
        have : cs0 = { done := false, result := none } :=
          (Option.some_inj.mp hcs0').symm
        rw [this] at hrs0
        cases hrs0
      exact ⟨c0, cs0, hj0, by rwa [getElem?_set_ne_self _ _ _ _ hc0c], hd0, hr0, hrs0⟩
  case leader_unique =>
    intro t1 th1 t2 th2 h1 h2 hl1 hl2
    rcases getElem?_set_elim _ _ _ _ _ h1 with ⟨rfl, rfl, _⟩ | ⟨hne1, hold1⟩
    · rcases getElem?_set_elim _ _ _ _ _ h2 with ⟨rfl, rfl, _⟩ | ⟨hne2, hold2⟩
      · rfl
      · exact absurd
          (hinv.leader_unique t2 th2 t1 th hold2 hth hl2 (Or.inl hpc)) hne2
    · rcases getElem?_set_elim _ _ _ _ _ h2 with ⟨rfl, rfl, _⟩ | ⟨hne2, hold2⟩
      · exact absurd
          (hinv.leader_unique t1 th1 t2 th hold1 hth hl1 (Or.inl hpc)) hne1
      · exact hinv.leader_unique t1 th1 t2 th2 hold1 hold2 hl1 hl2
  case inflight_lt =>
    intro c' hc'
    have := hinv.inflight_lt c' hc'
    simpa using this
  case fn_eq =>
    show s.fnCount + 1 = List.countP _ (s.calls.set c _)
    rw [countP_set_flip (fun cs => cs.result.isSome) s.calls c cs _ hcs
      (by simp [hcs0]) rfl]
    rw [hinv.fn_eq]
  case covered =>
    intro c' hc'
    have hc'' : c' < s.calls.length := by simpa using hc'
    rcases hinv.covered c' hc'' with ⟨t0, th0, hth0, hj0⟩
    by_cases ht0 : t0 = t
    · subst ht0
      have hth0t : th0 = th := by rw [hth0] at hth; exact Option.some_inj.mp hth
      subst hth0t
      exact ⟨t0, { th0 with pc := 2 },
        List.getElem?_set_self (mem_of_getElem?_some hth0), hj0⟩
    · exact ⟨t0, th0, by rwa [getElem?_set_ne_self _ _ _ _ ht0], hj0⟩

end edge

namespace edge

theorem coInv_step_close (s : CoState) (hinv : CoInv s) (t : Nat) (th : ThreadSt)
    (c : Nat) (cs : CallSt) (hth : s.threads[t]? = some th) (hpc : th.pc = 2)
    (hj : th.joined = some c) (hcs : s.calls[c]? = some cs) :
    CoInv { s with
            calls := s.calls.set c { cs with done := true },
            threads := s.threads.set t { th with pc := 3 } } := by
  have hph := hinv.phase2 t th hth hpc c hj
  rcases hph.2 with ⟨cs', hcs', hd', hr'⟩
  have hcc : cs' = cs := by
    rw [hcs'] at hcs
    exact Option.some_inj.mp hcs
  rw [hcc] at hcs' hd' hr'
  have hclt : c < s.calls.length := mem_of_getElem?_some hcs'
  constructor
  case joined_lt =>
    intro t' th' h' c' hj'
    rcases getElem?_set_elim _ _ _ _ _ h' with ⟨_, rfl, _⟩ | ⟨_, hold⟩
    · simpa using hinv.joined_lt t th hth c' hj'
    · simpa using hinv.joined_lt t' th' hold c' hj'
  case pc0_joined =>
    intro t' th' h' hpc'
    rcases getElem?_set_elim _ _ _ _ _ h' with ⟨_, rfl, _⟩ | ⟨_, hold⟩
    · simp at hpc'
    · exact hinv.pc0_joined t' th' hold hpc'
  case joined_some =>
    intro t' th' h' hpc'
    rcases getElem?_set_elim _ _ _ _ _ h' with ⟨_, rfl, _⟩ | ⟨_, hold⟩
    · show th.joined.isSome
      rw [hj]
      rfl
    · exact hinv.joined_some t' th' hold hpc'
  case phase1 =>
    intro t' th' h' hpc' c' hj'
    rcases getElem?_set_elim _ _ _ _ _ h' with ⟨_, rfl, _⟩ | ⟨hne, hold⟩
    · simp at hpc'
    · exact absurd
        (hinv.leader_unique t' th' t th hold hth (Or.inl hpc')
          (Or.inr (Or.inl hpc))) hne
  case phase2 =>
    intro t' th' h' hpc' c' hj'
    rcases getElem?_set_elim _ _ _ _ _ h' with ⟨_, rfl, _⟩ | ⟨hne, hold⟩
    · simp at hpc'
    · exact absurd
        (hinv.leader_unique t' th' t th hold hth (Or.inr (Or.inl hpc'))
          (Or.inr (Or.inl hpc))) hne
  case phase3 =>
    intro t' th' h' hpc' c' hj'
    rcases getElem?_set_elim _ _ _ _ _ h' with ⟨_, rfl, _⟩ | ⟨hne, hold⟩
    · have hcc : c = c' := by
        rw [hj] at hj'
        exact Option.some_inj.mp hj'
      subst hcc
      exact ⟨hph.1, { cs with done := true }, List.getElem?_set_self hclt, rfl,
        by simpa using hr'⟩
    · exact absurd
        (hinv.leader_unique t' th' t th hold hth (Or.inr (Or.inr hpc'))
          (Or.inr (Or.inl hpc))) hne
  case done_result =>
    intro c' cs'' h' hdone
    rcases getElem?_set_elim _ _ _ _ _ h' with ⟨_, rfl, _⟩ | ⟨_, hold⟩
    · simpa using hr'
    · exact hinv.done_result c' cs'' hold hdone
  case finished =>
    intro t' th' h' hpc'
    rcases getElem?_set_elim _ _ _ _ _ h' with ⟨_, rfl, _⟩ | ⟨_, hold⟩
    · simp at hpc'
    · rcases hinv.finished t' th' hold hpc' with ⟨c0, cs0, hj0, hcs0, hd0, hr0, hrs0⟩
      have hc0c : c0 ≠ c := by
        intro hcc
        subst hcc
        rw [hcs'] at hcs0
        have hcs0e : cs0 = cs := (Option.some_inj.mp hcs0).symm
        rw [hcs0e] at hd0
        rw [hd0] at hd'
        cases hd'
      exact ⟨c0, cs0, hj0, by rwa [getElem?_set_ne_self _ _ _ _ hc0c], hd0, hr0, hrs0⟩
  case leader_unique =>
    intro t1 th1 t2 th2 h1 h2 hl1 hl2
    rcases getElem?_set_elim _ _ _ _ _ h1 with ⟨rfl, rfl, _⟩ | ⟨hne1, hold1⟩
    · rcases getElem?_set_elim _ _ _ _ _ h2 with ⟨rfl, rfl, _⟩ | ⟨hne2, hold2⟩
      · rfl
      · exact absurd
          (hinv.leader_unique t2 th2 t1 th hold2 hth hl2 (Or.inr (Or.inl hpc))) hne2
    · rcases getElem?_set_elim _ _ _ _ _ h2 with ⟨rfl, rfl, _⟩ | ⟨hne2, hold2⟩
      · exact absurd
          (hinv.leader_unique t1 th1 t2 th hold1 hth hl1 (Or.inr (Or.inl hpc))) hne1
      · exact hinv.leader_unique t1 th1 t2 th2 hold1 hold2 hl1 hl2
  case inflight_lt =>
    intro c' hc'
    simpa using hinv.inflight_lt c' hc'
  case fn_eq =>
    show s.fnCount = List.countP (fun cs => cs.result.isSome) (s.calls.set c _)
    rw [countP_set_same (fun cs => cs.result.isSome) s.calls c cs
      { cs with done := true } hcs (by rfl)]
    exact hinv.fn_eq
  case covered =>
    intro c' hc'
    have hc'' : c' < s.calls.length := by simpa using hc'
    rcases hinv.covered c' hc'' with ⟨t0, th0, hth0, hj0⟩
    by_cases ht0 : t0 = t
    · subst ht0
      have hth0t : th0 = th := by rw [hth0] at hth; exact Option.some_inj.mp hth
      subst hth0t
      exact ⟨t0, { th0 with pc := 3 },
        List.getElem?_set_self (mem_of_getElem?_some hth0), hj0⟩
    · exact ⟨t0, th0, by rwa [getElem?_set_ne_self _ _ _ _ ht0], hj0⟩

theorem coInv_step_exit (s : CoState) (hinv : CoInv s) (t : Nat) (th : ThreadSt)
    (c : Nat) (hth : s.threads[t]? = some th) (hpc : th.pc = 3)
    (hj : th.joined = some c) :
    CoInv { s with
            inflight := none,
            threads := s.threads.set t
              { th with pc := 5, ret := readResult s c } } := by
  have hph := hinv.phase3 t th hth hpc c hj
  rcases hph.2 with ⟨cs, hcs, hd, hr⟩
  have hread : readResult s c = cs.result := by
    unfold readResult
    rw [hcs]
  constructor
  case joined_lt =>
    intro t' th' h' c' hj'
    rcases getElem?_set_elim _ _ _ _ _ h' with ⟨_, rfl, _⟩ | ⟨_, hold⟩
    · exact hinv.joined_lt t th hth c' hj'
    · exact hinv.joined_lt t' th' hold c' hj'
  case pc0_joined =>
    intro t' th' h' hpc'
    rcases getElem?_set_elim _ _ _ _ _ h' with ⟨_, rfl, _⟩ | ⟨_, hold⟩
    · simp at hpc'
    · exact hinv.pc0_joined t' th' hold hpc'
  case joined_some =>
    intro t' th' h' hpc'
    rcases getElem?_set_elim _ _ _ _ _ h' with ⟨_, rfl, _⟩ | ⟨_, hold⟩
    · show th.joined.isSome
      rw [hj]
      rfl
    · exact hinv.joined_some t' th' hold hpc'
  case phase1 =>
    intro t' th' h' hpc' c' hj'
    rcases getElem?_set_elim _ _ _ _ _ h' with ⟨_, rfl, _⟩ | ⟨hne, hold⟩
    · simp at hpc'
    · exact absurd
        (hinv.leader_unique t' th' t th hold hth (Or.inl hpc')
          (Or.inr (Or.inr hpc))) hne
  case phase2 =>
    intro t' th' h' hpc' c' hj'
    rcases getElem?_set_elim _ _ _ _ _ h' with ⟨_, rfl, _⟩ | ⟨hne, hold⟩
    · simp at hpc'
    · exact absurd
        (hinv.leader_unique t' th' t th hold hth (Or.inr (Or.inl hpc'))
          (Or.inr (Or.inr hpc))) hne
  case phase3 =>
    intro t' th' h' hpc' c' hj'
    rcases getElem?_set_elim _ _ _ _ _ h' with ⟨_, rfl, _⟩ | ⟨hne, hold⟩
    · simp at hpc'
    · exact absurd
        (hinv.leader_unique t' th' t th hold hth (Or.inr (Or.inr hpc'))
          (Or.inr (Or.inr hpc))) hne
  case done_result =>
    exact hinv.done_result
  case finished =>
    intro t' th' h' hpc'
    rcases getElem?_set_elim _ _ _ _ _ h' with ⟨_, rfl, _⟩ | ⟨_, hold⟩
    · exact ⟨c, cs, hj, hcs, hd, hread, hr⟩
    · exact hinv.finished t' th' hold hpc'
  case leader_unique =>
    intro t1 th1 t2 th2 h1 h2 hl1 hl2
    rcases getElem?_set_elim _ _ _ _ _ h1 with ⟨rfl, rfl, _⟩ | ⟨hne1, hold1⟩
    · rcases hl1 with h | h | h <;> simp at h
    · rcases getElem?_set_elim _ _ _ _ _ h2 with ⟨rfl, rfl, _⟩ | ⟨hne2, hold2⟩
      · rcases hl2 with h | h | h <;> simp at h
      · exact hinv.leader_unique t1 th1 t2 th2 hold1 hold2 hl1 hl2
  case inflight_lt =>
    intro c' hc'
    cases hc'
  case fn_eq =>
    exact hinv.fn_eq
  case covered =>
    intro c' hc'
    rcases hinv.covered c' hc' with ⟨t0, th0, hth0, hj0⟩
    by_cases ht0 : t0 = t
    · subst ht0
      have hth0t : th0 = th := by rw [hth0] at hth; exact Option.some_inj.mp hth
      subst hth0t
      exact ⟨t0, { th0 with pc := 5, ret := readResult s c },
        List.getElem?_set_self (mem_of_getElem?_some hth0), hj0⟩
    · exact ⟨t0, th0, by rwa [getElem?_set_ne_self _ _ _ _ ht0], hj0⟩

theorem coInv_step_wait (s : CoState) (hinv : CoInv s) (t : Nat) (th : ThreadSt)
    (c : Nat) (cs : CallSt) (hth : s.threads[t]? = some th) (hpc : th.pc = 4)
    (hj : th.joined = some c) (hcs : s.calls[c]? = some cs)
    (hdone : cs.done = true) :
    CoInv { s with
            threads := s.threads.set t { th with pc := 5, ret := cs.result } } := by
  constructor
  case joined_lt =>
    intro t' th' h' c' hj'
    rcases getElem?_set_elim _ _ _ _ _ h' with ⟨_, rfl, _⟩ | ⟨_, hold⟩
    · exact hinv.joined_lt t th hth c' hj'
    · exact hinv.joined_lt t' th' hold c' hj'
  case pc0_joined =>
    intro t' th' h' hpc'
    rcases getElem?_set_elim _ _ _ _ _ h' with ⟨_, rfl, _⟩ | ⟨_, hold⟩
    · simp at hpc'
    · exact hinv.pc0_joined t' th' hold hpc'
  case joined_some =>
    intro t' th' h' hpc'
    rcases getElem?_set_elim _ _ _ _ _ h' with ⟨_, rfl, _⟩ | ⟨_, hold⟩
    · show th.joined.isSome
      rw [hj]
      rfl
    · exact hinv.joined_some t' th' hold hpc'
  case phase1 =>
    intro t' th' h' hpc' c' hj'
    rcases getElem?_set_elim _ _ _ _ _ h' with ⟨_, rfl, _⟩ | ⟨_, hold⟩
    · simp at hpc'
    · exact hinv.phase1 t' th' hold hpc' c' hj'
  case phase2 =>
    intro t' th' h' hpc' c' hj'
    rcases getElem?_set_elim _ _ _ _ _ h' with ⟨_, rfl, _⟩ | ⟨_, hold⟩
    · simp at hpc'
    · exact hinv.phase2 t' th' hold hpc' c' hj'
  case phase3 =>
    intro t' th' h' hpc' c' hj'
    rcases getElem?_set_elim _ _ _ _ _ h' with ⟨_, rfl, _⟩ | ⟨_, hold⟩
    · simp at hpc'
    · exact hinv.phase3 t' th' hold hpc' c' hj'
  case done_result =>
    exact hinv.done_result
  case finished =>
    intro t' th' h' hpc'
    rcases getElem?_set_elim _ _ _ _ _ h' with ⟨_, rfl, _⟩ | ⟨_, hold⟩
    · exact ⟨c, cs, hj, hcs, hdone, rfl, hinv.done_result c cs hcs hdone⟩
    · exact hinv.finished t' th' hold hpc'
  case leader_unique =>
    intro t1 th1 t2 th2 h1 h2 hl1 hl2
    rcases getElem?_set_elim _ _ _ _ _ h1 with ⟨rfl, rfl, _⟩ | ⟨hne1, hold1⟩
    · rcases hl1 with h | h | h <;> simp at h
    · rcases getElem?_set_elim _ _ _ _ _ h2 with ⟨rfl, rfl, _⟩ | ⟨hne2, hold2⟩
      · rcases hl2 with h | h | h <;> simp at h
      · exact hinv.leader_unique t1 th1 t2 th2 hold1 hold2 hl1 hl2
  case inflight_lt =>
    exact hinv.inflight_lt
  case fn_eq =>
    exact hinv.fn_eq
  case covered =>
    intro c' hc'
    rcases hinv.covered c' hc' with ⟨t0, th0, hth0, hj0⟩
    by_cases ht0 : t0 = t
    · subst ht0
      have hth0t : th0 = th := by rw [hth0] at hth; exact Option.some_inj.mp hth
      subst hth0t
      exact ⟨t0, { th0 with pc := 5, ret := cs.result },
        List.getElem?_set_self (mem_of_getElem?_some hth0), hj0⟩
    · exact ⟨t0, th0, by rwa [getElem?_set_ne_self _ _ _ _ ht0], hj0⟩

end edge

namespace edge

theorem coInv_init (C : Nat) :
    CoInv { inflight := none, calls := [], fnCount := 0,
            threads := List.replicate C { pc := 0, joined := none, ret := none } } := by
  have hrep : ∀ (t : Nat) (th : ThreadSt),
      (List.replicate C
        ({ pc := 0, joined := none, ret := none } : ThreadSt))[t]? = some th →
      th = { pc := 0, joined := none, ret := none } := by
    intro t th h
    rcases Nat.lt_or_ge t C with hlt | hge
    · rw [List.getElem?_replicate_of_lt hlt] at h
      exact (Option.some_inj.mp h).symm
    · rw [List.getElem?_eq_none_iff.mpr (by simpa using hge)] at h
      cases h
  constructor
  case joined_lt =>
    intro t th h c hj
    rw [hrep t th h] at hj
    cases hj
  case pc0_joined =>
    intro t th h _
    rw [hrep t th h]
  case joined_some =>
    intro t th h hpc
    rw [hrep t th h] at hpc
    simp at hpc
  case phase1 =>
    intro t th h hpc c hj
    rw [hrep t th h] at hpc
    simp at hpc
  case phase2 =>
    intro t th h hpc c hj
    rw [hrep t th h] at hpc
    simp at hpc
  case phase3 =>
    intro t th h hpc c hj
    rw [hrep t th h] at hpc
    simp at hpc
  case done_result =>
    intro c cs h _
    cases h
  case finished =>
    intro t th h hpc
    rw [hrep t th h] at hpc
    simp at hpc
  case leader_unique =>
    intro t1 th1 t2 th2 h1 h2 hl1 hl2
    rw [hrep t1 th1 h1] at hl1
    rcases hl1 with h | h | h <;> simp at h
  case inflight_lt =>
    intro c hc
    cases hc
  case fn_eq =>
    rfl
  case covered =>
    intro c hc
    simp at hc
  
theorem coInv_step (s : CoState) (hinv : CoInv s) (t : Nat) :
    CoInv (coStep s t) := by
  unfold coStep
  cases hth : s.threads[t]? with
  | none => exact hinv
  | some th =>
    dsimp only
    by_cases h0 : th.pc = 0
    · rw [if_pos h0]
      cases hin : s.inflight with
      | some c =>
        dsimp only
        have hlem := coInv_step_join s hinv t th c hth h0 hin
        rwa [hin] at hlem
      | none =>
        dsimp only
        exact coInv_step_create s hinv t th hth h0 hin
    · rw [if_neg h0]
      by_cases h1 : th.pc = 1
      · rw [if_pos h1]
        cases hj : th.joined with
        | none => exact hinv
        | some c =>
          dsimp only
          cases hcs : s.calls[c]? with
          | none => exact hinv
          | some cs =>
            dsimp only
            have hlem := coInv_step_run s hinv t th c cs hth h1 hj hcs
            rwa [hj] at hlem
      · rw [if_neg h1]
        by_cases h2 : th.pc = 2
        · rw [if_pos h2]
          cases hj : th.joined with
          | none => exact hinv
          | some c =>
            dsimp only
            cases hcs : s.calls[c]? with
            | none => exact hinv
            | some cs =>
              dsimp only
              have hlem := coInv_step_close s hinv t th c cs hth h2 hj hcs
              rwa [hj] at hlem
        · rw [if_neg h2]
          by_cases h3 : th.pc = 3
          · rw [if_pos h3]
            cases hj : th.joined with
            | none => exact hinv
            | some c =>
              dsimp only
              have hlem := coInv_step_exit s hinv t th c hth h3 hj
              rwa [hj] at hlem
          · rw [if_neg h3]
            by_cases h4 : th.pc = 4
            · rw [if_pos h4]
              cases hj : th.joined with
              | none => exact hinv
              | some c =>
                dsimp only
                cases hcs : s.calls[c]? with
                | none => exact hinv
                | some cs =>
                  dsimp only
                  cases hdone : cs.done with
                  | false =>
                    rw [if_neg (by simp)]
                    exact hinv
                  | true =>
                    rw [if_pos rfl]
                    have hlem := coInv_step_wait s hinv t th c cs hth h4 hj hcs
                      (by rw [hdone])
                    rwa [hj] at hlem
            · rw [if_neg h4]
              exact hinv

theorem coStep_threads_length (s : CoState) (t : Nat) :
    (coStep s t).threads.length = s.threads.length := by
  unfold coStep
  (repeat' split) <;> (first | rfl | simp [List.length_set])

theorem foldl_coStep_inv (sched : List Nat) (s : CoState) (hs : CoInv s) :
    CoInv (sched.foldl coStep s) := by
  induction sched generalizing s with
  | nil => exact hs
  | cons t rest ih => exact ih (coStep s t) (coInv_step s hs t)

theorem coRun_inv (C : Nat) (sched : List Nat) : CoInv (coRun C sched) :=
  foldl_coStep_inv sched _ (coInv_init C)

theorem foldl_coStep_length (sched : List Nat) (s : CoState) :
    (sched.foldl coStep s).threads.length = s.threads.length := by
  induction sched generalizing s with
  | nil => rfl
  | cons t rest ih =>
    rw [List.foldl_cons, ih (coStep s t), coStep_threads_length]

theorem coRun_threads_length (C : Nat) (sched : List Nat) :
    (coRun C sched).threads.length = C := by
  unfold coRun
  rw [foldl_coStep_length]
  simp

end edge

namespace edge

/-- C2 — cache request coalescing.  For any caller count `C > 0` and any
interleaving `sched` of the `C` callers of `coalescer.do` for one key, if
every caller has returned and all callers joined the same in-flight call
(the formalization of a single miss window), then `fn` was invoked exactly
once, and every caller returns the same result — the identity of the one
`(resp, err)` pair produced by that single invocation. -/
theorem coalescer_do_single_window (C : Nat) (sched : List Nat) (hC : 0 < C)
    (hterm : ∀ th ∈ (coRun C sched).threads, th.pc = 5)
    (hwin : ∀ th1 ∈ (coRun C sched).threads, ∀ th2 ∈ (coRun C sched).threads,
      th1.joined = th2.joined) :
    (coRun C sched).fnCount = 1 ∧
    (∀ th1 ∈ (coRun C sched).threads, ∀ th2 ∈ (coRun C sched).threads,
      th1.ret = th2.ret ∧ th1.ret.isSome) := by
  have hinv := coRun_inv C sched
  have hlen := coRun_threads_length C sched
  set s := coRun C sched with hs
  have h0lt : 0 < s.threads.length := by rw [hlen]; exact hC
  cases hth0 : s.threads[0]? with
  | none =>
    rw [List.getElem?_eq_none_iff] at hth0
    omega
  | some th0 =>
    have hth0mem : th0 ∈ s.threads := List.getElem?_mem hth0
    have hpc0 : th0.pc = 5 := hterm th0 hth0mem
    rcases hinv.finished 0 th0 hth0 hpc0 with ⟨c0, cs0, hj0, hcs0, hd0, hr0, hrs0⟩
    have hc0lt : c0 < s.calls.length := hinv.joined_lt 0 th0 hth0 c0 hj0
    have hallc : ∀ c, c < s.calls.length → c = c0 := by
      intro c hc
      rcases hinv.covered c hc with ⟨t1, th1, hth1, hj1⟩
      have hmem1 : th1 ∈ s.threads := List.getElem?_mem hth1
      have := hwin th1 hmem1 th0 hth0mem
      rw [hj1, hj0] at this
      exact Option.some_inj.mp this
    have hc00 : c0 = 0 := by
      by_contra hne
      have h0c : (0 : Nat) < s.calls.length := by omega
      have := hallc 0 h0c
      omega
    have hlen1 : s.calls.length = 1 := by
      by_contra hne
      have h1c : (1 : Nat) < s.calls.length := by omega
      have := hallc 1 h1c
      omega
    rcases List.length_eq_one.mp hlen1 with ⟨cs, hcalls⟩
    have hcs0e : cs = cs0 := by
      rw [hcalls, hc00] at hcs0
      simpa using hcs0
    subst hcs0e
    have hretof : ∀ th ∈ s.threads, th.ret = cs.result := by
      intro th hmem
      rcases List.getElem?_of_mem hmem with ⟨t, hth⟩
      have hpc : th.pc = 5 := hterm th hmem
      rcases hinv.finished t th hth hpc with ⟨c, cs', hj, hcs', hd', hr', hrs'⟩
      have hjeq := hwin th hmem th0 hth0mem
      rw [hj, hj0] at hjeq
      have hcc0 : c = c0 := Option.some_inj.mp hjeq
      rw [hcc0, hc00, hcalls] at hcs'
      have hcse : cs' = cs := by
        have h2 := hcs'
        simp at h2
        exact h2.symm
      rw [hcse] at hr'
      exact hr'
    constructor
    · rw [hinv.fn_eq, hcalls]
      simp [List.countP_cons, hrs0]
    · intro th1 hmem1 th2 hmem2
      refine ⟨(hretof th1 hmem1).trans (hretof th2 hmem2).symm, ?_⟩
      rw [hretof th1 hmem1]
      exact hrs0

/-- Evaluation of `coalescer_do_single_window` on two concrete callers:
thread 0 creates the call and runs `fn`, thread 1 joins the in-flight call
and waits; under the schedule `[0, 1, 0, 0, 1, 0]` both finish with the
same result and `fn` ran exactly once. -/
theorem coalescer_do_single_window_eval :
    (coRun 2 [0, 1, 0, 0, 1, 0]).fnCount = 1 :=
  (coalescer_do_single_window 2 [0, 1, 0, 0, 1, 0] (by decide) (by decide)
    (by decide)).1

end edge
